import Mathlib

/-!
Verification of the custom-object-manager CLI (src/cli.ts) against its
natural-language specification.

The development shallowly embeds the reconciliation engine and the three
command flows (create, delete, update) of cli.ts as executable Lean
definitions, and proves or refutes the frozen claims about them.

Modelling conventions:
- A remote or local JSON property object is a `Property`: its mandatory
  string field (the JS code destructures and dot-accesses it on every
  property) is kept separately, and the remaining fields are an association
  list of string keys to `FieldVal`s.  Iterating the JS object's keys
  (as Object.keys does, with the distinguished field first, matching JSON
  insertion order) is `allFields`.
- A JSON field value relevant to the claims is either an atomic value
  (`FieldVal.str`, compared with strict equality as JS does for
  primitives) or an array of option objects (`FieldVal.arr`); option
  objects carry the label and value strings the code compares.
- JS code that can throw a TypeError (calling .every / .find on a value
  that is not an array, or reading a field of undefined) is embedded in
  `Except Unit`, with `.error ()` standing for the thrown exception.
- The HTTP layer is an oracle: each remote call's outcome is a parameter
  (a function saying which calls fail), and a flow's observable behaviour
  is the sequence of calls it issues, or the exception that escapes it.
-/

namespace COM

/-- JS String.prototype.startsWith on character lists. -/
def isPre : List Char → List Char → Bool
  | [], _ => true
  | _ :: _, [] => false
  | a :: as, b :: bs => a == b && isPre as bs

/-- Helper for substring search on character lists. -/
def listHasSub (sub : List Char) : List Char → Bool
  | [] => sub.isEmpty
  | c :: cs => isPre sub (c :: cs) || listHasSub sub cs

/-- JS String.prototype.includes: substring containment test (cli.ts line 154
uses name.includes on the reserved markers). -/
def strIncludes (s sub : String) : Bool := listHasSub sub.toList s.toList

/-- Whether sub occurs at the start of s (the spec's reading of the reserved
markers: a name that begins with them). -/
def strStarts (s sub : String) : Bool := isPre sub.toList s.toList

/-- One enumerated option object: the label and value fields the code
compares in shouldContainAll (cli.ts lines 133-139). -/
structure HOption where
  label : String
  value : String
deriving DecidableEq, Repr

/-- A JSON field value as the reconciliation engine distinguishes them:
an array of options (Array.isArray true) or an atomic value. -/
inductive FieldVal where
  | str (s : String)
  | arr (options : List HOption)
deriving DecidableEq, Repr

/-- A property definition: the mandatory string field the code reads on
every property, plus the remaining fields of the JSON object in order. -/
structure Property where
  name : String
  fields : List (String × FieldVal)
deriving DecidableEq, Repr

/-- The keys of the JS property object in insertion order: the
distinguished string field first (as in the JSON files), then the rest. -/
def allFields (p : Property) : List (String × FieldVal) :=
  ("name", FieldVal.str p.name) :: p.fields

/-- JS bracket lookup on the property object: some value, or none for
undefined. -/
def lookupField (p : Property) (k : String) : Option FieldVal :=
  ((allFields p).find? (fun e => e.1 == k)).map (fun e => e.2)

/-- cli.ts lines 133-139: every option of a has a matching option of b by
both label and value. -/
def shouldContainAll (a b : List HOption) : Bool :=
  a.all (fun aOption =>
    (b.find? (fun bOption =>
      bOption.label == aOption.label && bOption.value == aOption.value)).isSome)

/-- cli.ts lines 141-146: symmetric inclusion of two option lists. -/
def validateOptions (existingOptions currentOptions : List HOption) : Bool :=
  shouldContainAll existingOptions currentOptions &&
    shouldContainAll currentOptions existingOptions

/-- cli.ts lines 152-157: current properties that are unprotected (the name
includes neither reserved marker) and absent by name from updated. -/
def toDelete (updatedProperties currentProperties : List Property) : List Property :=
  currentProperties.filter (fun p =>
    !(strIncludes p.name "hs_" || strIncludes p.name "hubspot_") &&
      !(updatedProperties.find? (fun q => q.name == p.name)).isSome)

/-- cli.ts lines 159-161: updated properties absent by name from current. -/
def toCreate (updatedProperties currentProperties : List Property) : List Property :=
  updatedProperties.filter (fun p =>
    !(currentProperties.find? (fun q => q.name == p.name)).isSome)

/-- cli.ts lines 168-175: the reduce over the keys of the updated property.
Once the accumulator is true it is returned unchanged; otherwise an
array-valued field is compared via validateOptions when the existing field
is also an array, and throws a TypeError (error) when it is not (calling
.every or .find on a non-array); an atomic field is compared with strict
inequality against the existing field (undefined when absent). -/
def diffFields (ex : Property) : List (String × FieldVal) → Bool → Except Unit Bool
  | [], acc => .ok acc
  | (k, v) :: rest, acc =>
    bif acc then diffFields ex rest acc
    else
      match v with
      | FieldVal.arr l =>
        match lookupField ex k with
        | some (FieldVal.arr lEx) => diffFields ex rest (!validateOptions l lEx)
        | _ => .error ()
      | FieldVal.str s =>
        diffFields ex rest (!(some (FieldVal.str s) == lookupField ex k))

/-- cli.ts lines 163-176, per updated property: find the same-named current
property; absent means not an update candidate, present means the field
reduce decides (or throws). -/
def propertyDiff (currentProperties : List Property) (updatedProperty : Property) :
    Except Unit Bool :=
  match currentProperties.find? (fun q => q.name == updatedProperty.name) with
  | none => .ok false
  | some existingProperty => diffFields existingProperty (allFields updatedProperty) false

/-- Array.prototype.filter with a predicate that may throw: the first
exception escapes, as in JS. -/
def filterE (f : Property → Except Unit Bool) : List Property → Except Unit (List Property)
  | [] => .ok []
  | x :: xs =>
    match f x with
    | .error e => .error e
    | .ok b =>
      match filterE f xs with
      | .error e => .error e
      | .ok rest => .ok (bif b then x :: rest else rest)

/-- cli.ts lines 163-176: the toUpdate set, or the exception escaping its
computation. -/
def toUpdate (updatedProperties currentProperties : List Property) :
    Except Unit (List Property) :=
  filterE (propertyDiff currentProperties) updatedProperties

/- Specification-side definitions (following the wording of spec.md, to be
compared with the code-derived definitions above). -/

/-- Spec wording for option-list equality: the two lists contain the same
set of label-value pairs irrespective of order. -/
def sameOptionSet (a b : List HOption) : Bool :=
  a.all (fun x => b.any (fun y => y == x)) && b.all (fun x => a.any (fun y => y == x))

/-- Spec wording for one field of the updated property differing from the
same-named field of the current property: an array-valued field differs
unless the option sets agree; any other field differs when the raw values
are not identical. -/
def fieldDiffSpec (ex : Property) (k : String) (v : FieldVal) : Bool :=
  match v with
  | FieldVal.arr l =>
    match lookupField ex k with
    | some (FieldVal.arr lEx) => !sameOptionSet l lEx
    | _ => true
  | FieldVal.str s => !(some (FieldVal.str s) == lookupField ex k)

/-- Spec wording for a matched property pair having at least one differing
field of the updated property. -/
def changedSpec (updatedProperty ex : Property) : Bool :=
  (allFields updatedProperty).any (fun e => fieldDiffSpec ex e.1 e.2)

/- Applying a reconciliation result to the current property list (for the
idempotence claim): remove the toDelete names, replace every current
property matched by a toUpdate property with that updated version, and add
the toCreate properties as given. -/

/-- Replacement step of applying a diff: a current property whose name is
matched by some toUpdate property is replaced by the first such updated
property; otherwise it is kept as is. -/
def replaceBy (tu : List Property) (q : Property) : Property :=
  match tu.find? (fun p => p.name == q.name) with
  | some p => p
  | none => q

/-- The remote property list after the first run's results are applied:
toDelete names removed, toUpdate properties substituted, toCreate
properties appended. -/
def applyDiff (u c tu : List Property) : List Property :=
  ((c.filter (fun q => !((toDelete u c).any (fun d => d.name == q.name)))).map
    (replaceBy tu)) ++ toCreate u c

/- The command flows.  HTTP outcomes are oracle parameters; a flow's
observable behaviour is the list of issued property operations or
submitted requests, or the error that escapes it. -/

/-- One property-level HTTP call of the update flow, carrying the target
objectTypeId and the property name appearing in the URL. -/
inductive PropOp where
  | del (objectTypeId propName : String)
  | create (objectTypeId propName : String)
  | upd (objectTypeId propName : String)
deriving DecidableEq, Repr

/-- One of the three per-property loops of updateSchema (cli.ts lines
178-207): each iteration issues the call built by mk; when the call fails
and the loop does not catch (the delete and create loops have no catch),
the exception aborts the rest; the patch loop attaches a catch that only
logs, so its failures are skipped. -/
def issueAll (fail : PropOp → Bool) (mk : String → PropOp) (catchFail : Bool) :
    List Property → Except PropOp (List PropOp)
  | [] => .ok []
  | p :: ps =>
    bif fail (mk p.name) && !catchFail then .error (mk p.name)
    else
      match issueAll fail mk catchFail ps with
      | .error op => .error op
      | .ok rest => .ok (mk p.name :: rest)

/-- What can escape updateSchema: the TypeError of the reconciliation
itself, or an uncaught failing property call. -/
inductive UpdErr where
  | typeErr
  | opFail (op : PropOp)
deriving DecidableEq, Repr

/-- cli.ts lines 178-207: the three loops in their fixed order: all
deletes, then all creates, then all patches. -/
def applyOps (fail : PropOp → Bool) (otid : String) (td tc tu : List Property) :
    Except PropOp (List PropOp) :=
  match issueAll fail (PropOp.del otid) false td with
  | .error op => .error op
  | .ok ds =>
    match issueAll fail (PropOp.create otid) false tc with
    | .error op => .error op
    | .ok cs =>
      match issueAll fail (PropOp.upd otid) true tu with
      | .error op => .error op
      | .ok us => .ok (ds ++ cs ++ us)

/-- cli.ts lines 148-208: reconcile, then issue the operations; the
TypeError thrown while computing toUpdate escapes before any call is
issued. -/
def updateSchema (fail : PropOp → Bool) (otid : String)
    (updatedProperties currentProperties : List Property) :
    Except UpdErr (List PropOp) :=
  match toUpdate updatedProperties currentProperties with
  | .error _ => .error .typeErr
  | .ok tu =>
    match applyOps fail otid (toDelete updatedProperties currentProperties)
        (toCreate updatedProperties currentProperties) tu with
    | .error op => .error (.opFail op)
    | .ok ops => .ok ops

/-- A remote schema record as the update flow reads it from the index. -/
structure SchemaRec where
  objectTypeId : String
  properties : List Property

/-- One matched local file of the update flow: its object-type identifier
from the path and its parsed property list. -/
structure UpdateFile where
  objectType : String
  properties : List Property

/-- cli.ts lines 210-223: the update flow over the matched files: missing
identifiers are logged and skipped, present ones run updateSchema; an
escaping exception aborts the rest. -/
def updateSchemas (meta : String → Option SchemaRec) (fail : PropOp → Bool) :
    List UpdateFile → Except UpdErr (List PropOp)
  | [] => .ok []
  | f :: fs =>
    match meta f.objectType with
    | none => updateSchemas meta fail fs
    | some cur =>
      match updateSchema fail cur.objectTypeId f.properties cur.properties with
      | .error e => .error e
      | .ok ops =>
        match updateSchemas meta fail fs with
        | .error e => .error e
        | .ok rest => .ok (ops ++ rest)

/-- The schema index: object-type name to assigned objectTypeId. -/
def Meta : Type := String → Option String

/-- JS truthiness of the createSchema result (cli.ts line 94): null and
the empty string are falsy. -/
def isTruthyId : Option String → Bool
  | none => false
  | some s => !s.isEmpty

/-- cli.ts lines 94-99: the index entry written after a create attempt:
only a truthy objectTypeId is recorded. -/
def updMeta (meta : Meta) (objectType : String) (r : Option String) : Meta :=
  match r with
  | none => meta
  | some id =>
    bif id.isEmpty then meta
    else fun x => bif x == objectType then some id else meta x

/-- One matched local file of the create flow: its object-type identifier
and the association targets stripped from its JSON body. -/
structure CreateFile where
  objectType : String
  associations : List String
deriving DecidableEq, Repr

/-- cli.ts lines 85-91 and 103-117: an association request. -/
structure AssociationRequest where
  name : String
  fromObjectTypeId : String
  toObjectTypeId : String
deriving DecidableEq, Repr

/-- cli.ts lines 85-91: the requests a file pushes before its create is
attempted. -/
def assocsOf (f : CreateFile) : List AssociationRequest :=
  f.associations.map (fun t => ⟨f.objectType ++ "_to_" ++ t, f.objectType, t⟩)

/-- cli.ts lines 81-100: the first loop of the create flow, threading the
index and the accumulated association requests through the batch; each
batch item is a file paired with its createSchema outcome. -/
def createPhase : Meta → List AssociationRequest →
    List (CreateFile × Option String) → Meta × List AssociationRequest
  | meta, acc, [] => (meta, acc)
  | meta, acc, (f, r) :: rest =>
    createPhase (updMeta meta f.objectType r) (acc ++ assocsOf f) rest

/-- cli.ts lines 106-115: the lodash get with the identifier itself as the
default: substitute the indexed objectTypeId when present, pass the
identifier through unchanged otherwise. -/
def resolveId (meta : Meta) (id : String) : String :=
  match meta id with
  | some v => v
  | none => id

/-- Resolution of one association request against an index. -/
def resolveAssoc (meta : Meta) (a : AssociationRequest) : AssociationRequest :=
  ⟨a.name, resolveId meta a.fromObjectTypeId, resolveId meta a.toObjectTypeId⟩

/-- cli.ts lines 74-118: the whole create flow: run the create loop, then
submit every accumulated request resolved against the final index. -/
def createSchemas (meta0 : Meta) (batch : List (CreateFile × Option String)) :
    List AssociationRequest :=
  ((createPhase meta0 [] batch).2).map (resolveAssoc (createPhase meta0 [] batch).1)

/-- The index after every create of the batch has been attempted. -/
def metaAfter (meta0 : Meta) : List (CreateFile × Option String) → Meta
  | [] => meta0
  | (f, r) :: rest => metaAfter (updMeta meta0 f.objectType r) rest

/-- All association requests the batch declares, in file order. -/
def collectAssociations : List (CreateFile × Option String) → List AssociationRequest
  | [] => []
  | (f, _) :: rest => assocsOf f ++ collectAssociations rest

/-- cli.ts lines 120-131: the delete flow: reading objectTypeId of a
missing index entry throws (the uncaught lookup error); deleteSchema has
its own try and catch, so its outcome (the oracle boolean) never aborts
the loop; the result lists each attempted id with its reported outcome. -/
def deleteSchemas (meta : Meta) (delOk : String → Bool) :
    List String → Except Unit (List (String × Bool))
  | [] => .ok []
  | t :: ts =>
    match meta t with
    | none => .error ()
    | some id =>
      match deleteSchemas meta delOk ts with
      | .error e => .error e
      | .ok rest => .ok ((id, delOk id) :: rest)

/- Shared helper lemmas. -/

theorem find?_isSome_eq_any {α : Type} (p : α → Bool) (l : List α) :
    (l.find? p).isSome = l.any p := by
  induction l with
  | nil => rfl
  | cons x xs ih =>
    cases h : p x
    · simp [List.find?, h, ih]
    · simp [List.find?, h]

theorem hoption_match_eq (x y : HOption) :
    (y.label == x.label && y.value == x.value) = (y == x) := by
  cases x with
  | mk xl xv =>
    cases y with
    | mk yl yv =>
      rw [Bool.eq_iff_iff]
      simp only [Bool.and_eq_true, beq_iff_eq]
      constructor
      · rintro ⟨h1, h2⟩; subst h1; subst h2; rfl
      · intro h; cases h; exact ⟨rfl, rfl⟩

theorem shouldContainAll_eq_subset (a b : List HOption) :
    shouldContainAll a b = a.all (fun x => b.any (fun y => y == x)) := by
  unfold shouldContainAll
  congr 1
  funext x
  rw [find?_isSome_eq_any]
  congr 1
  funext y
  exact hoption_match_eq x y

theorem validateOptions_eq_sameOptionSet (a b : List HOption) :
    validateOptions a b = sameOptionSet a b := by
  unfold validateOptions sameOptionSet
  rw [shouldContainAll_eq_subset, shouldContainAll_eq_subset]

theorem validateOptions_self (a : List HOption) : validateOptions a a = true := by
  rw [validateOptions_eq_sameOptionSet]
  unfold sameOptionSet
  simp only [Bool.and_self]
  rw [List.all_eq_true]
  intro x hx
  rw [List.any_eq_true]
  exact ⟨x, hx, by simp⟩

theorem validateOptions_comm (a b : List HOption) :
    validateOptions a b = validateOptions b a := by
  unfold validateOptions
  exact Bool.and_comm _ _

theorem validateOptions_of_perm (a b : List HOption) (h : a.Perm b) :
    validateOptions a b = true := by
  rw [validateOptions_eq_sameOptionSet]
  unfold sameOptionSet
  rw [Bool.and_eq_true, List.all_eq_true, List.all_eq_true]
  constructor
  · intro x hx
    rw [List.any_eq_true]
    exact ⟨x, h.mem_iff.mp hx, by simp⟩
  · intro x hx
    rw [List.any_eq_true]
    exact ⟨x, h.mem_iff.mpr hx, by simp⟩

/- Claims C1, C3, C9. -/

/-- C1 counterexample: the property my_hs_field is absent from the updated
schema and its name does not begin with hs_ or hubspot_, so the claim puts
it in toDelete; but the code tests substring containment, and the name
contains hs_, so toDelete is empty. -/
theorem toDelete_reserved_counterexample :
    strStarts "my_hs_field" "hs_" = false ∧
      strStarts "my_hs_field" "hubspot_" = false ∧
      (List.find? (fun q => q.name == "my_hs_field") ([] : List Property)) = none ∧
      (⟨"my_hs_field", []⟩ : Property) ∈ ([⟨"my_hs_field", []⟩] : List Property) ∧
      toDelete [] [⟨"my_hs_field", []⟩] = [] := by
  refine ⟨rfl, rfl, rfl, ?_, rfl⟩
  exact List.mem_singleton.mpr rfl

/-- C1 (amended): toDelete contains exactly those properties of current
whose name is absent from the names of the updated properties and does not
contain the substring hs_ or hubspot_ anywhere in the name (the code tests
containment, not a leading marker; names that begin with hs_ or hubspot_
in particular contain them and so never appear in toDelete). -/
theorem toDelete_characterization (u c : List Property) (p : Property) :
    p ∈ toDelete u c ↔
      p ∈ c ∧ strIncludes p.name "hs_" = false ∧ strIncludes p.name "hubspot_" = false ∧
        ∀ q ∈ u, q.name ≠ p.name := by
  unfold toDelete
  rw [List.mem_filter]
  constructor
  · rintro ⟨hmem, hpred⟩
    rw [Bool.and_eq_true, Bool.not_eq_true', Bool.or_eq_false_iff] at hpred
    obtain ⟨⟨h1, h2⟩, hfind⟩ := hpred
    rw [Bool.not_eq_true', Option.not_isSome, Option.isNone_iff_eq_none,
      List.find?_eq_none] at hfind
    refine ⟨hmem, h1, h2, fun q hq => ?_⟩
    have := hfind q hq
    simpa using this
  · rintro ⟨hmem, h1, h2, habs⟩
    refine ⟨hmem, ?_⟩
    rw [Bool.and_eq_true, Bool.not_eq_true', Bool.or_eq_false_iff]
    refine ⟨⟨h1, h2⟩, ?_⟩
    rw [Bool.not_eq_true', Option.not_isSome, Option.isNone_iff_eq_none,
      List.find?_eq_none]
    intro q hq
    simpa using habs q hq

/-- C3: the option-list comparison is symmetric, reflexive, invariant under
permutation, and consequently a property whose options are merely reordered
remotely (scenario 2) produces an empty toUpdate. -/
theorem validateOptions_algebra :
    (∀ a b : List HOption, validateOptions a b = validateOptions b a) ∧
      (∀ a : List HOption, validateOptions a a = true) ∧
      (∀ a b : List HOption, a.Perm b → validateOptions a b = true) ∧
      toUpdate
        [⟨"status", [("options", FieldVal.arr [⟨"A", "a"⟩, ⟨"B", "b"⟩])]⟩]
        [⟨"status", [("options", FieldVal.arr [⟨"B", "b"⟩, ⟨"A", "a"⟩])]⟩] = .ok [] := by
  refine ⟨validateOptions_comm, validateOptions_self, validateOptions_of_perm, rfl⟩

/-- C3 witness: the permutation clause applied to the two concrete option
lists of scenario 2. -/
theorem validateOptions_algebra_witness :
    validateOptions [⟨"A", "a"⟩, ⟨"B", "b"⟩] [⟨"B", "b"⟩, ⟨"A", "a"⟩] = true :=
  validateOptions_algebra.2.2.1 [⟨"A", "a"⟩, ⟨"B", "b"⟩] [⟨"B", "b"⟩, ⟨"A", "a"⟩]
    (by decide)

/- Lemmas about filterE and diffFields, toward C2 and C8. -/

theorem filterE_mem (f : Property → Except Unit Bool) :
    ∀ (xs r : List Property), filterE f xs = .ok r →
      ∀ p, p ∈ r ↔ p ∈ xs ∧ f p = .ok true := by
  intro xs
  induction xs with
  | nil => intro r h p; cases h; simp
  | cons x xs ih =>
    intro r h p
    simp only [filterE] at h
    rcases hx : f x with e | b <;> rw [hx] at h
    · simp at h
    · rcases hrest : filterE f xs with e | rest <;> rw [hrest] at h
      · simp at h
      · simp only [Except.ok.injEq] at h
        subst h
        have hp := ih rest hrest p
        cases b with
        | true =>
          simp only [Bool.cond_true, List.mem_cons]
          constructor
          · rintro (rfl | hmem)
            · exact ⟨Or.inl rfl, hx⟩
            · exact ⟨Or.inr (hp.mp hmem).1, (hp.mp hmem).2⟩
          · rintro ⟨rfl | hmem, hf⟩
            · exact Or.inl rfl
            · exact Or.inr (hp.mpr ⟨hmem, hf⟩)
        | false =>
          simp only [Bool.cond_false, List.mem_cons]
          constructor
          · intro hmem
            exact ⟨Or.inr (hp.mp hmem).1, (hp.mp hmem).2⟩
          · rintro ⟨rfl | hmem, hf⟩
            · rw [hx] at hf; simp at hf
            · exact hp.mpr ⟨hmem, hf⟩

theorem filterE_ok_of_mem (f : Property → Except Unit Bool) :
    ∀ (xs r : List Property), filterE f xs = .ok r →
      ∀ p, p ∈ xs → ∃ b, f p = .ok b := by
  intro xs
  induction xs with
  | nil =>
    intro r _ p hp
    exact absurd hp (by simp)
  | cons x xs ih =>
    intro r h p hp
    simp only [filterE] at h
    rcases hx : f x with e | b <;> rw [hx] at h
    · simp at h
    · rcases hrest : filterE f xs with e | rest <;> rw [hrest] at h
      · simp at h
      · rcases List.mem_cons.mp hp with rfl | hmem
        · exact ⟨b, hx⟩
        · exact ih rest hrest p hmem

theorem filterE_all_false (f : Property → Except Unit Bool) :
    ∀ (xs : List Property), (∀ p ∈ xs, f p = .ok false) → filterE f xs = .ok [] := by
  intro xs
  induction xs with
  | nil => intro _; rfl
  | cons x xs ih =>
    intro h
    simp only [filterE]
    rw [h x (by simp), ih (fun p hp => h p (List.mem_cons_of_mem x hp))]
    rfl

theorem filterE_sublist (f : Property → Except Unit Bool) :
    ∀ (xs r : List Property), filterE f xs = .ok r → r.Sublist xs := by
  intro xs
  induction xs with
  | nil =>
    intro r h
    cases h
    exact List.Sublist.refl []
  | cons x xs ih =>
    intro r h
    simp only [filterE] at h
    rcases hx : f x with e | b <;> rw [hx] at h
    · simp at h
    · rcases hrest : filterE f xs with e | rest <;> rw [hrest] at h
      · simp at h
      · simp only [Except.ok.injEq] at h
        subst h
        cases b with
        | true => exact List.Sublist.cons₂ x (ih rest hrest)
        | false => exact List.Sublist.cons x (ih rest hrest)

theorem diffFields_true (ex : Property) :
    ∀ (fs : List (String × FieldVal)), diffFields ex fs true = .ok true := by
  intro fs
  induction fs with
  | nil => rfl
  | cons e rest ih =>
    rcases e with ⟨k, v⟩
    simp only [diffFields, Bool.cond_true]
    exact ih

theorem diffFields_ok (ex : Property) :
    ∀ (fs : List (String × FieldVal)) (acc b : Bool),
      diffFields ex fs acc = .ok b →
      b = (acc || fs.any (fun e => fieldDiffSpec ex e.1 e.2)) := by
  intro fs
  induction fs with
  | nil =>
    intro acc b h
    cases h
    simp
  | cons e rest ih =>
    intro acc b h
    rcases e with ⟨k, v⟩
    simp only [diffFields] at h
    cases acc with
    | true =>
      rw [Bool.cond_true, diffFields_true ex rest] at h
      cases h
      simp
    | false =>
      rw [Bool.cond_false] at h
      cases v with
      | arr l =>
        rcases hl : lookupField ex k with _ | fv <;> rw [hl] at h
        · simp at h
        · cases fv with
          | str s => simp at h
          | arr lEx =>
            have hb := ih _ b h
            rw [hb]
            simp only [List.any_cons, Bool.false_or]
            have hfd : fieldDiffSpec ex k (FieldVal.arr l) = !validateOptions l lEx := by
              unfold fieldDiffSpec
              rw [hl, validateOptions_eq_sameOptionSet]
            rw [hfd]
      | str s =>
        have hb := ih _ b h
        rw [hb]
        simp only [List.any_cons, Bool.false_or]
        have hfd : fieldDiffSpec ex k (FieldVal.str s) =
            !(some (FieldVal.str s) == lookupField ex k) := rfl
        rw [hfd]

/-- C2: when the reconciliation does not throw, toUpdate contains exactly
those updated properties that are matched by name in current (by the code
find: the first same-named current property) and have at least one field
differing under the spec rule: an array-valued field differs unless the two
option lists contain the same set of label-value pairs irrespective of
order, and any other field differs when the raw values are not identical. -/
theorem toUpdate_characterization (u c l : List Property)
    (h : toUpdate u c = .ok l) (p : Property) :
    p ∈ l ↔ p ∈ u ∧ ∃ q, c.find? (fun x => x.name == p.name) = some q ∧
      changedSpec p q = true := by
  unfold toUpdate at h
  rw [filterE_mem (propertyDiff c) u l h p]
  constructor
  · rintro ⟨hmem, hf⟩
    refine ⟨hmem, ?_⟩
    unfold propertyDiff at hf
    rcases hq : c.find? (fun x => x.name == p.name) with _ | q <;> rw [hq] at hf
    · exact absurd hf (by simp)
    · refine ⟨q, hq, ?_⟩
      have := diffFields_ok q (allFields p) false true hf
      simp only [Bool.false_or] at this
      unfold changedSpec
      exact this.symm
  · rintro ⟨hmem, q, hq, hchanged⟩
    refine ⟨hmem, ?_⟩
    obtain ⟨b, hb⟩ := filterE_ok_of_mem (propertyDiff c) u l h p hmem
    unfold propertyDiff at hb ⊢
    rw [hq] at hb ⊢
    have := diffFields_ok q (allFields p) false b hb
    simp only [Bool.false_or] at this
    unfold changedSpec at hchanged
    rw [hchanged] at this
    rw [hb, this]

/-- C2 witness: a one-property pair whose type field differs is the whole
toUpdate set, and its membership matches the spec rule. -/
theorem toUpdate_characterization_witness :
    toUpdate [⟨"p1", [("type", FieldVal.str "number")]⟩]
      [⟨"p1", [("type", FieldVal.str "string")]⟩] =
      .ok [⟨"p1", [("type", FieldVal.str "number")]⟩] ∧
    ((⟨"p1", [("type", FieldVal.str "number")]⟩ : Property) ∈
        [(⟨"p1", [("type", FieldVal.str "number")]⟩ : Property)] ↔
      (⟨"p1", [("type", FieldVal.str "number")]⟩ : Property) ∈
        [(⟨"p1", [("type", FieldVal.str "number")]⟩ : Property)] ∧
      ∃ q, List.find? (fun x => x.name == "p1")
          [(⟨"p1", [("type", FieldVal.str "string")]⟩ : Property)] = some q ∧
        changedSpec ⟨"p1", [("type", FieldVal.str "number")]⟩ q = true) :=
  ⟨rfl, toUpdate_characterization
    [⟨"p1", [("type", FieldVal.str "number")]⟩]
    [⟨"p1", [("type", FieldVal.str "string")]⟩]
    [⟨"p1", [("type", FieldVal.str "number")]⟩] rfl
    ⟨"p1", [("type", FieldVal.str "number")]⟩⟩

theorem replaceBy_name (tu : List Property) (q : Property) :
    (replaceBy tu q).name = q.name := by
  unfold replaceBy
  rcases h : tu.find? (fun p => p.name == q.name) with _ | p
  · rw [h]
  · rw [h]
    simpa using List.find?_some h

theorem findName_of_mem_nodup (l : List Property)
    (hnd : (l.map Property.name).Nodup) (p : Property) (hp : p ∈ l) :
    l.find? (fun x => x.name == p.name) = some p := by
  induction l with
  | nil => exact absurd hp (by simp)
  | cons x xs ih =>
    rw [List.map_cons, List.nodup_cons] at hnd
    rcases List.mem_cons.mp hp with rfl | hmem
    · exact List.find?_cons_of_pos xs (by simp)
    · have hne : x.name ≠ p.name := by
        intro hcontra
        exact hnd.1 (hcontra ▸ List.mem_map_of_mem Property.name hmem)
      rw [List.find?_cons_of_neg xs (by simpa using hne)]
      exact ih hnd.2 hmem

theorem eq_of_name_eq_of_nodup (l : List Property)
    (hnd : (l.map Property.name).Nodup) (x y : Property)
    (hx : x ∈ l) (hy : y ∈ l) (hname : x.name = y.name) : x = y := by
  have h1 := findName_of_mem_nodup l hnd x hx
  have h2 := findName_of_mem_nodup l hnd y hy
  rw [hname] at h1
  rw [h1] at h2
  exact (Option.some.injEq _ _ ▸ h2)

theorem alist_find_of_mem_nodup (k : String) (v : FieldVal) :
    ∀ (l : List (String × FieldVal)), (l.map Prod.fst).Nodup → (k, v) ∈ l →
      l.find? (fun e => e.1 == k) = some (k, v) := by
  intro l
  induction l with
  | nil => intro _ h; exact absurd h (by simp)
  | cons e es ih =>
    intro hnd hm
    rw [List.map_cons, List.nodup_cons] at hnd
    rcases List.mem_cons.mp hm with rfl | hmem
    · exact List.find?_cons_of_pos es (by simp)
    · have hne : e.1 ≠ k := by
        intro hcontra
        exact hnd.1 (hcontra ▸ List.mem_map_of_mem Prod.fst hmem)
      rw [List.find?_cons_of_neg es (by simpa using hne)]
      exact ih hnd.2 hmem

theorem lookupField_of_mem_nodup (p : Property)
    (hw : ((allFields p).map Prod.fst).Nodup) (k : String) (v : FieldVal)
    (hkv : (k, v) ∈ allFields p) : lookupField p k = some v := by
  unfold lookupField
  rw [alist_find_of_mem_nodup k v (allFields p) hw hkv]
  rfl

theorem diffFields_self_aux (p : Property) :
    ∀ (fs : List (String × FieldVal)),
      (∀ e ∈ fs, lookupField p e.1 = some e.2) →
      diffFields p fs false = .ok false := by
  intro fs
  induction fs with
  | nil => intro _; rfl
  | cons e rest ih =>
    intro h
    rcases e with ⟨k, v⟩
    have hk : lookupField p k = some v := h (k, v) (by simp)
    have htail := ih (fun e he => h e (List.mem_cons_of_mem _ he))
    cases v with
    | arr l =>
      have hred : diffFields p ((k, FieldVal.arr l) :: rest) false =
          diffFields p rest (!validateOptions l l) := by
        simp only [diffFields, Bool.cond_false]
        rw [hk]
      rw [hred, validateOptions_self l]
      exact htail
    | str s =>
      have hred : diffFields p ((k, FieldVal.str s) :: rest) false =
          diffFields p rest (!(some (FieldVal.str s) == lookupField p k)) := by
        simp only [diffFields, Bool.cond_false]
      rw [hred, hk]
      simp only [beq_self_eq_true, Bool.not_true]
      exact htail

theorem diffFields_self (p : Property)
    (hw : ((allFields p).map Prod.fst).Nodup) :
    diffFields p (allFields p) false = .ok false :=
  diffFields_self_aux p (allFields p)
    (fun e he => lookupField_of_mem_nodup p hw e.1 e.2 he)

theorem findName_filter (g : Property → Bool)
    (hg : ∀ x y : Property, x.name = y.name → g x = g y) (n : String) :
    ∀ l : List Property,
      (l.filter g).find? (fun x => x.name == n) =
        (l.find? (fun x => x.name == n)).bind
          (fun q => bif g q then some q else none) := by
  intro l
  induction l with
  | nil => rfl
  | cons x xs ih =>
    by_cases hx : x.name = n
    · rw [List.find?_cons_of_pos xs (by simpa using hx)]
      cases hgx : g x with
      | true =>
        rw [List.filter_cons_of_pos hgx,
          List.find?_cons_of_pos _ (by simpa using hx)]
        simp [hgx]
      | false =>
        rw [List.filter_cons_of_neg (by simp [hgx])]
        simp only [Option.some_bind, hgx, Bool.cond_false]
        rw [List.find?_eq_none]
        intro y hy
        rw [List.mem_filter] at hy
        intro hyn
        have hyname : y.name = n := by simpa using hyn
        have : g y = g x := hg y x (hyname.trans hx.symm)
        rw [hgx] at this
        rw [this] at hy
        exact absurd hy.2 (by simp)
    · rw [List.find?_cons_of_neg xs (by simpa using hx)]
      cases hgx : g x with
      | true =>
        rw [List.filter_cons_of_pos hgx,
          List.find?_cons_of_neg _ (by simpa using hx)]
        exact ih
      | false =>
        rw [List.filter_cons_of_neg (by simp [hgx])]
        exact ih

theorem findName_map_replaceBy (tu : List Property) (n : String) :
    ∀ l : List Property,
      (l.map (replaceBy tu)).find? (fun x => x.name == n) =
        (l.find? (fun x => x.name == n)).map (replaceBy tu) := by
  intro l
  induction l with
  | nil => rfl
  | cons x xs ih =>
    rw [List.map_cons]
    by_cases hx : x.name = n
    · rw [List.find?_cons_of_pos _ (by simp [replaceBy_name, hx]),
        List.find?_cons_of_pos xs (by simpa using hx)]
      rfl
    · rw [List.find?_cons_of_neg _ (by simp [replaceBy_name, hx]),
        List.find?_cons_of_neg xs (by simpa using hx)]
      exact ih

theorem td_any_eq_false_of_mem (u c : List Property) (p : Property) (hp : p ∈ u) :
    (toDelete u c).any (fun d => d.name == p.name) = false := by
  rw [Bool.eq_false_iff]
  intro hcontra
  rw [List.any_eq_true] at hcontra
  obtain ⟨d, hd, hdn⟩ := hcontra
  have hdn : d.name = p.name := by simpa using hdn
  unfold toDelete at hd
  rw [List.mem_filter] at hd
  have hfind := hd.2
  rw [Bool.and_eq_true] at hfind
  have hfind2 := hfind.2
  rw [Bool.not_eq_true', Option.not_isSome, Option.isNone_iff_eq_none,
    List.find?_eq_none] at hfind2
  have := hfind2 p hp
  rw [hdn] at this
  exact this (by simp)

/-- C8 counterexample: with two updated properties sharing the name x (one
declaring f 1, one f 2) against a current list holding the f 1 version, the
first run updates x to f 2; applying that to the current list and
reconciling again yields a non-empty toUpdate, so reconcile-then-apply is
not idempotent as claimed for every pair of schemas. -/
theorem reconcile_idempotence_counterexample :
    toUpdate [⟨"x", [("f", FieldVal.str "1")]⟩, ⟨"x", [("f", FieldVal.str "2")]⟩]
        [⟨"x", [("f", FieldVal.str "1")]⟩] = .ok [⟨"x", [("f", FieldVal.str "2")]⟩] ∧
    toUpdate [⟨"x", [("f", FieldVal.str "1")]⟩, ⟨"x", [("f", FieldVal.str "2")]⟩]
        (applyDiff [⟨"x", [("f", FieldVal.str "1")]⟩, ⟨"x", [("f", FieldVal.str "2")]⟩]
          [⟨"x", [("f", FieldVal.str "1")]⟩] [⟨"x", [("f", FieldVal.str "2")]⟩]) =
      .ok [⟨"x", [("f", FieldVal.str "1")]⟩] ∧
    toUpdate [⟨"x", [("f", FieldVal.str "1")]⟩, ⟨"x", [("f", FieldVal.str "2")]⟩]
        (applyDiff [⟨"x", [("f", FieldVal.str "1")]⟩, ⟨"x", [("f", FieldVal.str "2")]⟩]
          [⟨"x", [("f", FieldVal.str "1")]⟩] [⟨"x", [("f", FieldVal.str "2")]⟩]) ≠
      .ok [] := by
  refine ⟨rfl, rfl, ?_⟩
  intro hc
  rw [show toUpdate [⟨"x", [("f", FieldVal.str "1")]⟩, ⟨"x", [("f", FieldVal.str "2")]⟩]
      (applyDiff [⟨"x", [("f", FieldVal.str "1")]⟩, ⟨"x", [("f", FieldVal.str "2")]⟩]
        [⟨"x", [("f", FieldVal.str "1")]⟩] [⟨"x", [("f", FieldVal.str "2")]⟩]) =
      .ok [⟨"x", [("f", FieldVal.str "1")]⟩] from rfl] at hc
  simp at hc

/-- C8 (amended): reconciliation is idempotent for well-formed schemas:
when the updated schema's property names are pairwise distinct and each
updated property's field keys are distinct (as JS object keys are), and
the first reconciliation does not throw, then applying its results to the
current list and reconciling again yields empty toDelete, toCreate and
toUpdate. -/
theorem reconcile_idempotent (u c tu : List Property)
    (hnd : (u.map Property.name).Nodup)
    (hwf : ∀ p ∈ u, ((allFields p).map Prod.fst).Nodup)
    (htu : toUpdate u c = .ok tu) :
    toDelete u (applyDiff u c tu) = [] ∧
      toCreate u (applyDiff u c tu) = [] ∧
      toUpdate u (applyDiff u c tu) = .ok [] := by
  have hsub_tu : tu.Sublist u := filterE_sublist _ u tu htu
  have hnd_tu : (tu.map Property.name).Nodup :=
    List.Nodup.sublist (hsub_tu.map Property.name) hnd
  have hnd_tc : ((toCreate u c).map Property.name).Nodup :=
    List.Nodup.sublist ((List.filter_sublist u).map Property.name) hnd
  have hg : ∀ x y : Property, x.name = y.name →
      (!((toDelete u c).any (fun d => d.name == x.name))) =
        (!((toDelete u c).any (fun d => d.name == y.name))) := by
    intro x y hxy
    rw [hxy]
  -- the central fact: every updated property is matched in the applied
  -- list by a property it does not differ from
  have key : ∀ p ∈ u, ∃ t,
      (applyDiff u c tu).find? (fun x => x.name == p.name) = some t ∧
        diffFields t (allFields p) false = .ok false := by
    intro p hp
    unfold applyDiff
    rw [List.find?_append, findName_map_replaceBy,
      findName_filter (fun q => !((toDelete u c).any (fun d => d.name == q.name))) hg]
    rcases hq : c.find? (fun x => x.name == p.name) with _ | q
    · -- no current property with this name: p is created, found in toCreate
      have hptc : p ∈ toCreate u c := by
        unfold toCreate
        rw [List.mem_filter]
        exact ⟨hp, by rw [hq]; rfl⟩
      refine ⟨p, ?_, diffFields_self p (hwf p hp)⟩
      rw [hq, findName_of_mem_nodup (toCreate u c) hnd_tc p hptc]
      rfl
    · -- a current property q with the same name exists and is kept
      have hqn : q.name = p.name := by simpa using List.find?_some hq
      have hkeep : (!((toDelete u c).any (fun d => d.name == q.name))) = true := by
        rw [hqn, td_any_eq_false_of_mem u c p hp]
        rfl
      rw [hq, Option.some_bind, hkeep, Bool.cond_true]
      obtain ⟨b, hb⟩ := filterE_ok_of_mem (propertyDiff c) u tu htu p hp
      by_cases hmem_tu : p ∈ tu
      · -- p was updated: q is replaced by p itself
        have hrepl : replaceBy tu q = p := by
          unfold replaceBy
          rw [hqn, findName_of_mem_nodup tu hnd_tu p hmem_tu]
        refine ⟨p, by simp [hrepl], diffFields_self p (hwf p hp)⟩
      · -- p was unchanged on the first run: q is kept and still matches
        have hrepl : replaceBy tu q = q := by
          unfold replaceBy
          rw [hqn]
          rw [List.find?_eq_none.mpr]
          intro y hy hyn
          have hyname : y.name = p.name := by simpa using hyn
          have : y = p :=
            eq_of_name_eq_of_nodup u hnd y p (hsub_tu.subset hy) hp hyname
          exact hmem_tu (this ▸ hy)
        have hbfalse : b = false := by
          cases b with
          | false => rfl
          | true =>
            exact absurd ((filterE_mem (propertyDiff c) u tu htu p).mpr ⟨hp, hb⟩)
              hmem_tu
        rw [hbfalse] at hb
        unfold propertyDiff at hb
        rw [hq] at hb
        exact ⟨q, by simp [hrepl], hb⟩
  have key2 : ∀ p ∈ u, propertyDiff (applyDiff u c tu) p = .ok false := by
    intro p hp
    obtain ⟨t, ht, hdiff⟩ := key p hp
    unfold propertyDiff
    rw [ht]
    exact hdiff
  refine ⟨?_, ?_, ?_⟩
  · -- second-run toDelete is empty
    unfold toDelete
    rw [List.filter_eq_nil_iff]
    intro x hx
    intro hcontra
    rw [Bool.and_eq_true] at hcontra
    obtain ⟨hres, habs0⟩ := hcontra
    rw [Bool.not_eq_true'] at hres
    rw [Bool.not_eq_true', Option.not_isSome, Option.isNone_iff_eq_none,
      List.find?_eq_none] at habs0
    have habsent := habs0
    unfold applyDiff at hx
    rcases List.mem_append.mp hx with hxm | hxtc
    · -- x comes from a kept current property q, which would itself be in toDelete
      obtain ⟨q, hqf, hqx⟩ := List.mem_map.mp hxm
      rw [List.mem_filter] at hqf
      have hxq : x.name = q.name := by rw [← hqx, replaceBy_name]
      have hqtd : q ∈ toDelete u c := by
        unfold toDelete
        rw [List.mem_filter]
        refine ⟨hqf.1, ?_⟩
        rw [Bool.and_eq_true]
        constructor
        · rw [Bool.not_eq_true', ← hxq]
          exact hres
        · rw [Bool.not_eq_true', Option.not_isSome, Option.isNone_iff_eq_none,
            List.find?_eq_none]
          intro y hy
          have hgot := habsent y hy
          rw [hxq] at hgot
          exact hgot
      have hkeepq := hqf.2
      rw [Bool.not_eq_true'] at hkeepq
      have hany : (toDelete u c).any (fun d => d.name == q.name) = true :=
        List.any_eq_true.mpr ⟨q, hqtd, by simp⟩
      rw [hkeepq] at hany
      exact absurd hany (by simp)
    · -- x comes from toCreate, hence from u, hence its name is found in u
      have hxu : x ∈ u := (List.filter_sublist u).subset hxtc
      have := habsent x hxu
      exact this (by simp)
  · -- second-run toCreate is empty
    unfold toCreate
    rw [List.filter_eq_nil_iff]
    intro p hp
    obtain ⟨t, ht, _⟩ := key p hp
    rw [ht]
    simp
  · -- second-run toUpdate is empty
    unfold toUpdate
    exact filterE_all_false _ u key2

/-- C9: the property comparison is not total: an updated property carrying
an array-valued field whose matched current property lacks that field makes
toUpdate throw (the thrown TypeError is the error value) instead of
classifying the property as changed. -/
theorem toUpdate_throws_on_missing_array_field :
    toUpdate [⟨"opt_prop", [("options", FieldVal.arr [⟨"A", "a"⟩])]⟩]
      [⟨"opt_prop", []⟩] = .error () := rfl

/-- C8 witness: a concrete run over distinct-named well-formed schemas:
the first reconciliation updates a, deletes gone, keeps hs_x, creates b,
and the second run over the applied list is empty. -/
theorem reconcile_idempotent_witness :
    (([⟨"a", [("t", FieldVal.str "1")]⟩, ⟨"b", []⟩] : List Property).map
      Property.name).Nodup ∧
    (∀ p ∈ ([⟨"a", [("t", FieldVal.str "1")]⟩, ⟨"b", []⟩] : List Property),
      ((allFields p).map Prod.fst).Nodup) ∧
    toUpdate [⟨"a", [("t", FieldVal.str "1")]⟩, ⟨"b", []⟩]
      [⟨"a", [("t", FieldVal.str "2")]⟩, ⟨"gone", []⟩, ⟨"hs_x", []⟩] =
      .ok [⟨"a", [("t", FieldVal.str "1")]⟩] ∧
    (toDelete [⟨"a", [("t", FieldVal.str "1")]⟩, ⟨"b", []⟩]
      (applyDiff [⟨"a", [("t", FieldVal.str "1")]⟩, ⟨"b", []⟩]
        [⟨"a", [("t", FieldVal.str "2")]⟩, ⟨"gone", []⟩, ⟨"hs_x", []⟩]
        [⟨"a", [("t", FieldVal.str "1")]⟩]) = [] ∧
    toCreate [⟨"a", [("t", FieldVal.str "1")]⟩, ⟨"b", []⟩]
      (applyDiff [⟨"a", [("t", FieldVal.str "1")]⟩, ⟨"b", []⟩]
        [⟨"a", [("t", FieldVal.str "2")]⟩, ⟨"gone", []⟩, ⟨"hs_x", []⟩]
        [⟨"a", [("t", FieldVal.str "1")]⟩]) = [] ∧
    toUpdate [⟨"a", [("t", FieldVal.str "1")]⟩, ⟨"b", []⟩]
      (applyDiff [⟨"a", [("t", FieldVal.str "1")]⟩, ⟨"b", []⟩]
        [⟨"a", [("t", FieldVal.str "2")]⟩, ⟨"gone", []⟩, ⟨"hs_x", []⟩]
        [⟨"a", [("t", FieldVal.str "1")]⟩]) = .ok []) :=
  ⟨by decide, by decide, rfl,
    reconcile_idempotent
      [⟨"a", [("t", FieldVal.str "1")]⟩, ⟨"b", []⟩]
      [⟨"a", [("t", FieldVal.str "2")]⟩, ⟨"gone", []⟩, ⟨"hs_x", []⟩]
      [⟨"a", [("t", FieldVal.str "1")]⟩] (by decide) (by decide) rfl⟩

/- Flow helper lemmas. -/

theorem issueAll_catch (fail : PropOp → Bool) (mk : String → PropOp) :
    ∀ l : List Property,
      issueAll fail mk true l = .ok (l.map (fun p => mk p.name)) := by
  intro l
  induction l with
  | nil => rfl
  | cons p ps ih =>
    simp only [issueAll, Bool.not_true, Bool.and_false, Bool.cond_false, ih,
      List.map_cons]

theorem issueAll_nofail (fail : PropOp → Bool) (mk : String → PropOp) :
    ∀ l : List Property, (∀ p ∈ l, fail (mk p.name) = false) →
      issueAll fail mk false l = .ok (l.map (fun p => mk p.name)) := by
  intro l
  induction l with
  | nil => intro _; rfl
  | cons p ps ih =>
    intro h
    simp only [issueAll, h p (by simp), Bool.false_and, Bool.cond_false,
      ih (fun q hq => h q (List.mem_cons_of_mem p hq)), List.map_cons]

theorem applyOps_ok (fail : PropOp → Bool) (otid : String)
    (td tc tu : List Property)
    (h1 : ∀ p ∈ td, fail (PropOp.del otid p.name) = false)
    (h2 : ∀ p ∈ tc, fail (PropOp.create otid p.name) = false) :
    applyOps fail otid td tc tu =
      .ok (td.map (fun p => PropOp.del otid p.name) ++
        tc.map (fun p => PropOp.create otid p.name) ++
        tu.map (fun p => PropOp.upd otid p.name)) := by
  unfold applyOps
  rw [issueAll_nofail fail (PropOp.del otid) td h1,
    issueAll_nofail fail (PropOp.create otid) tc h2,
    issueAll_catch fail (PropOp.upd otid) tu]

theorem updateSchema_ok (fail : PropOp → Bool) (otid : String)
    (u c tu : List Property) (htu : toUpdate u c = .ok tu) :
    updateSchema fail otid u c =
      match applyOps fail otid (toDelete u c) (toCreate u c) tu with
      | .error op => .error (.opFail op)
      | .ok ops => .ok ops := by
  unfold updateSchema
  rw [htu]

theorem createPhase_spec :
    ∀ (batch : List (CreateFile × Option String)) (meta : Meta)
      (acc : List AssociationRequest),
      createPhase meta acc batch =
        (metaAfter meta batch, acc ++ collectAssociations batch) := by
  intro batch
  induction batch with
  | nil =>
    intro meta acc
    simp [createPhase, metaAfter, collectAssociations]
  | cons e rest ih =>
    intro meta acc
    rcases e with ⟨f, r⟩
    simp only [createPhase, metaAfter, collectAssociations,
      ih (updMeta meta f.objectType r) (acc ++ assocsOf f)]
    rw [List.append_assoc]

theorem createSchemas_resolved (meta0 : Meta)
    (batch : List (CreateFile × Option String)) :
    createSchemas meta0 batch =
      (collectAssociations batch).map (resolveAssoc (metaAfter meta0 batch)) := by
  unfold createSchemas
  rw [createPhase_spec batch meta0 []]
  simp

theorem metaAfter_unchanged :
    ∀ (batch : List (CreateFile × Option String)) (m : Meta) (x : String),
      (∀ gr ∈ batch, (gr : CreateFile × Option String).1.objectType = x →
        isTruthyId gr.2 = false) →
      metaAfter m batch x = m x := by
  intro batch
  induction batch with
  | nil => intro m x _; rfl
  | cons e rest ih =>
    intro m x h
    rcases e with ⟨g, r2⟩
    simp only [metaAfter]
    rw [ih (updMeta m g.objectType r2) x
      (fun gr hgr => h gr (List.mem_cons_of_mem _ hgr))]
    rcases r2 with _ | id
    · rfl
    · show (bif id.isEmpty then m
        else fun y => bif y == g.objectType then some id else m y) x = m x
      by_cases hgx : g.objectType = x
      · have htr : (!id.isEmpty) = false := h (g, some id) (by simp) hgx
        rw [Bool.not_eq_false'] at htr
        rw [htr]
        rfl
      · cases hie : id.isEmpty
        · show (bif x == g.objectType then some id else m x) = m x
          have hxg : (x == g.objectType) = false := by
            rw [Bool.eq_false_iff]
            intro hc
            have hc2 : x = g.objectType := by simpa using hc
            exact hgx hc2.symm
          rw [hxg]
          rfl
        · rfl

theorem collect_mem :
    ∀ (batch : List (CreateFile × Option String)) (f : CreateFile)
      (r : Option String) (a : AssociationRequest),
      (f, r) ∈ batch → a ∈ assocsOf f → a ∈ collectAssociations batch := by
  intro batch
  induction batch with
  | nil =>
    intro f r a hmem _
    exact absurd hmem (by simp)
  | cons e rest ih =>
    intro f r a hmem ha
    rcases e with ⟨g, r2⟩
    rcases List.mem_cons.mp hmem with heq | hmem2
    · rw [Prod.mk.injEq] at heq
      rw [collectAssociations]
      exact List.mem_append_left _ (heq.1 ▸ ha)
    · rw [collectAssociations]
      exact List.mem_append_right _ (ih f r a hmem2 ha)

theorem deleteSchemas_error_of_missing (meta : Meta) (delOk : String → Bool) :
    ∀ (ts : List String) (x : String), x ∈ ts → meta x = none →
      deleteSchemas meta delOk ts = .error () := by
  intro ts
  induction ts with
  | nil =>
    intro x hx _
    exact absurd hx (by simp)
  | cons t ts ih =>
    intro x hx hnone
    rcases List.mem_cons.mp hx with rfl | hmem
    · simp only [deleteSchemas, hnone]
    · simp only [deleteSchemas]
      rcases hmt : meta t with _ | id
      · rfl
      · rw [ih x hmem hnone]

theorem deleteSchemas_ok_of_present (meta : Meta) (delOk : String → Bool) :
    ∀ ts : List String, (∀ t ∈ ts, (meta t).isSome = true) →
      ∃ r, deleteSchemas meta delOk ts = .ok r := by
  intro ts
  induction ts with
  | nil => intro _; exact ⟨[], rfl⟩
  | cons t ts ih =>
    intro h
    obtain ⟨id, hid⟩ := Option.isSome_iff_exists.mp (h t (by simp))
    obtain ⟨rest, hrest⟩ := ih (fun y hy => h y (List.mem_cons_of_mem t hy))
    refine ⟨(id, delOk id) :: rest, ?_⟩
    simp only [deleteSchemas, hid, hrest]

/- Flow claim theorems. -/

/-- C4: the create flow submits its accumulated association requests only
after every create of the batch has been attempted, each resolved against
the final index (substituting the stored objectTypeId when the identifier
is a key, passing it through unchanged otherwise); in the scenario where
company declares an association to deal and both creates succeed, the one
submitted request carries both newly assigned ids. -/
theorem createSchemas_two_phase :
    (∀ (meta0 : Meta) (batch : List (CreateFile × Option String)),
      createSchemas meta0 batch =
        (collectAssociations batch).map (resolveAssoc (metaAfter meta0 batch))) ∧
    createSchemas (fun _ => none)
      [(⟨"company", ["deal"]⟩, some "2-111"), (⟨"deal", []⟩, some "2-222")] =
      [⟨"company_to_deal", "2-111", "2-222"⟩] :=
  ⟨createSchemas_resolved, rfl⟩

/-- C5 counterexample: a failing per-property delete is not caught: with a
pending create of property b, the failing delete of property a makes
applyOps abort with the exception instead of skipping, so the create for b
is never issued. -/
theorem applyOps_abort_counterexample :
    applyOps (fun op => op == PropOp.del "2-1" "a") "2-1"
      [⟨"a", []⟩] [⟨"b", []⟩] [] = .error (PropOp.del "2-1" "a") := rfl

/-- C5 (amended): in the update flow, a failing per-property patch is
caught and skipped and never aborts the loops (first clause, with no
assumption on patch outcomes), but a failing per-property delete or create
is NOT caught: it aborts the remaining operations and propagates (second
and third clauses), as documented for the client operations. -/
theorem applyOps_error_policy :
    (∀ (fail : PropOp → Bool) (otid : String) (td tc tu : List Property),
      (∀ p ∈ td, fail (PropOp.del otid p.name) = false) →
      (∀ p ∈ tc, fail (PropOp.create otid p.name) = false) →
      applyOps fail otid td tc tu =
        .ok (td.map (fun p => PropOp.del otid p.name) ++
          tc.map (fun p => PropOp.create otid p.name) ++
          tu.map (fun p => PropOp.upd otid p.name))) ∧
    (∀ (fail : PropOp → Bool) (otid : String) (p : Property)
      (td tc tu : List Property), fail (PropOp.del otid p.name) = true →
      applyOps fail otid (p :: td) tc tu = .error (PropOp.del otid p.name)) ∧
    (∀ (fail : PropOp → Bool) (otid : String) (p : Property)
      (td tc tu : List Property),
      (∀ q ∈ td, fail (PropOp.del otid q.name) = false) →
      fail (PropOp.create otid p.name) = true →
      applyOps fail otid td (p :: tc) tu = .error (PropOp.create otid p.name)) := by
  refine ⟨applyOps_ok, ?_, ?_⟩
  · intro fail otid p td tc tu hfail
    unfold applyOps
    rw [show issueAll fail (PropOp.del otid) false (p :: td) =
        Except.error (PropOp.del otid p.name) from by
      unfold issueAll
      rw [hfail]
      rfl]
  · intro fail otid p td tc tu hok hfail
    unfold applyOps
    rw [issueAll_nofail fail (PropOp.del otid) td hok,
      show issueAll fail (PropOp.create otid) false (p :: tc) =
        Except.error (PropOp.create otid p.name) from by
      unfold issueAll
      rw [hfail]
      rfl]

/-- C5 witness: with no delete or create failures and a failing patch on
u1, all three loops complete and every call is issued (the patch failure
is skipped); and the two abort clauses at concrete failing calls. -/
theorem applyOps_error_policy_witness :
    applyOps (fun op => op == PropOp.upd "9" "u1") "9"
      [⟨"d1", []⟩] [⟨"c1", []⟩] [⟨"u1", []⟩] =
      .ok [PropOp.del "9" "d1", PropOp.create "9" "c1", PropOp.upd "9" "u1"] ∧
    applyOps (fun op => op == PropOp.del "9" "d1") "9"
      [⟨"d1", []⟩] [⟨"c1", []⟩] [] = .error (PropOp.del "9" "d1") ∧
    applyOps (fun op => op == PropOp.create "9" "c1") "9"
      [⟨"d1", []⟩] [⟨"c1", []⟩] [] = .error (PropOp.create "9" "c1") :=
  ⟨applyOps_error_policy.1 (fun op => op == PropOp.upd "9" "u1") "9"
      [⟨"d1", []⟩] [⟨"c1", []⟩] [⟨"u1", []⟩] (by decide) (by decide),
    applyOps_error_policy.2.1 (fun op => op == PropOp.del "9" "d1") "9"
      ⟨"d1", []⟩ [] [⟨"c1", []⟩] [] (by decide),
    applyOps_error_policy.2.2 (fun op => op == PropOp.create "9" "c1") "9"
      ⟨"c1", []⟩ [⟨"d1", []⟩] [] [] (by decide) (by decide)⟩

/-- C6: in the update flow, a file whose identifier is absent from the
index contributes nothing and the flow continues with the remaining files
(first clause); a file whose identifier is present runs the reconciliation
and, when none of its delete and create calls fail, issues exactly all
deletes, then all creates, then all patches, prepended to the rest of the
flow (second clause). -/
theorem updateSchemas_flow (meta : String → Option SchemaRec)
    (fail : PropOp → Bool) (f : UpdateFile) (fs : List UpdateFile) :
    (meta f.objectType = none →
      updateSchemas meta fail (f :: fs) = updateSchemas meta fail fs) ∧
    (∀ (cur : SchemaRec) (tu : List Property), meta f.objectType = some cur →
      toUpdate f.properties cur.properties = .ok tu →
      (∀ p ∈ toDelete f.properties cur.properties,
        fail (PropOp.del cur.objectTypeId p.name) = false) →
      (∀ p ∈ toCreate f.properties cur.properties,
        fail (PropOp.create cur.objectTypeId p.name) = false) →
      updateSchema fail cur.objectTypeId f.properties cur.properties =
        .ok ((toDelete f.properties cur.properties).map
            (fun p => PropOp.del cur.objectTypeId p.name) ++
          (toCreate f.properties cur.properties).map
            (fun p => PropOp.create cur.objectTypeId p.name) ++
          tu.map (fun p => PropOp.upd cur.objectTypeId p.name)) ∧
      updateSchemas meta fail (f :: fs) =
        (updateSchemas meta fail fs).map
          (fun rest => ((toDelete f.properties cur.properties).map
              (fun p => PropOp.del cur.objectTypeId p.name) ++
            (toCreate f.properties cur.properties).map
              (fun p => PropOp.create cur.objectTypeId p.name) ++
            tu.map (fun p => PropOp.upd cur.objectTypeId p.name)) ++ rest)) := by
  constructor
  · intro hnone
    simp only [updateSchemas, hnone]
  · intro cur tu hsome htu h1 h2
    have hupd : updateSchema fail cur.objectTypeId f.properties cur.properties =
        .ok ((toDelete f.properties cur.properties).map
            (fun p => PropOp.del cur.objectTypeId p.name) ++
          (toCreate f.properties cur.properties).map
            (fun p => PropOp.create cur.objectTypeId p.name) ++
          tu.map (fun p => PropOp.upd cur.objectTypeId p.name)) := by
      rw [updateSchema_ok fail cur.objectTypeId f.properties cur.properties tu htu,
        applyOps_ok fail cur.objectTypeId _ _ tu h1 h2]
    refine ⟨hupd, ?_⟩
    simp only [updateSchemas, hsome, hupd]
    rcases hfs : updateSchemas meta fail fs with e | rest <;> rfl

/-- C6 witness: a missing identifier is skipped with no operations; a
present one yields the delete of old then the create of new. -/
theorem updateSchemas_flow_witness :
    updateSchemas
      (fun s => bif s == "t1" then some ⟨"0-5", [⟨"old", []⟩]⟩ else none)
      (fun _ => false) [⟨"missing", [⟨"foo", []⟩]⟩] =
      updateSchemas
        (fun s => bif s == "t1" then some ⟨"0-5", [⟨"old", []⟩]⟩ else none)
        (fun _ => false) [] ∧
    updateSchemas
      (fun s => bif s == "t1" then some ⟨"0-5", [⟨"old", []⟩]⟩ else none)
      (fun _ => false) [⟨"t1", [⟨"new", []⟩]⟩] =
      .ok [PropOp.del "0-5" "old", PropOp.create "0-5" "new"] := by
  constructor
  · exact (updateSchemas_flow
      (fun s => bif s == "t1" then some ⟨"0-5", [⟨"old", []⟩]⟩ else none)
      (fun _ => false) ⟨"missing", [⟨"foo", []⟩]⟩ []).1 rfl
  · have h := (updateSchemas_flow
      (fun s => bif s == "t1" then some ⟨"0-5", [⟨"old", []⟩]⟩ else none)
      (fun _ => false) ⟨"t1", [⟨"new", []⟩]⟩ []).2 ⟨"0-5", [⟨"old", []⟩]⟩ []
      rfl rfl (by decide) (by decide)
    rw [h.2]
    rfl

/-- C7: in the delete flow, an identifier whose entry is missing from the
index makes the whole flow abort with the uncaught lookup error, wherever
it sits in the batch (first clause); when every identifier is present the
flow completes, whatever the delete outcomes (second clause), so the only
abort source is the lookup. -/
theorem deleteSchemas_lookup_fatal (meta : Meta) (delOk : String → Bool)
    (ts : List String) :
    (∀ x ∈ ts, meta x = none → deleteSchemas meta delOk ts = .error ()) ∧
    ((∀ t ∈ ts, (meta t).isSome = true) →
      ∃ r, deleteSchemas meta delOk ts = .ok r) :=
  ⟨fun x hx hnone => deleteSchemas_error_of_missing meta delOk ts x hx hnone,
    deleteSchemas_ok_of_present meta delOk ts⟩

/-- C7 witness: a two-identifier batch whose second identifier is missing
from the index terminates with the lookup error. -/
theorem deleteSchemas_lookup_fatal_witness :
    deleteSchemas (fun s => bif s == "a" then some "0-1" else none)
      (fun _ => true) ["a", "b"] = .error () :=
  (deleteSchemas_lookup_fatal (fun s => bif s == "a" then some "0-1" else none)
    (fun _ => true) ["a", "b"]).1 "b" (by decide) rfl

/-- C10: association requests are accumulated before their file's create is
attempted and the index is written only on success, so a file whose create
fails (and whose identifier is indexed nowhere else) still has each of its
declared requests submitted, with its raw local identifier passed through
unresolved as fromObjectTypeId. -/
theorem createSchemas_failed_assoc_submitted (meta0 : Meta)
    (batch : List (CreateFile × Option String)) (f : CreateFile)
    (r : Option String) (t : String)
    (hmem : (f, r) ∈ batch) (ht : t ∈ f.associations)
    (h0 : meta0 f.objectType = none)
    (hfail : ∀ gr ∈ batch, (gr : CreateFile × Option String).1.objectType =
      f.objectType → isTruthyId gr.2 = false) :
    (⟨f.objectType ++ "_to_" ++ t, f.objectType,
      resolveId (metaAfter meta0 batch) t⟩ : AssociationRequest) ∈
      createSchemas meta0 batch := by
  rw [createSchemas_resolved meta0 batch]
  have hmA : metaAfter meta0 batch f.objectType = none :=
    (metaAfter_unchanged batch meta0 f.objectType hfail).trans h0
  have ha : (⟨f.objectType ++ "_to_" ++ t, f.objectType, t⟩ : AssociationRequest) ∈
      collectAssociations batch :=
    collect_mem batch f r _ hmem (List.mem_map_of_mem _ ht)
  have hres : resolveAssoc (metaAfter meta0 batch)
      ⟨f.objectType ++ "_to_" ++ t, f.objectType, t⟩ =
      ⟨f.objectType ++ "_to_" ++ t, f.objectType,
        resolveId (metaAfter meta0 batch) t⟩ := by
    unfold resolveAssoc resolveId
    rw [hmA]
  rw [← hres]
  exact List.mem_map_of_mem _ ha

/-- C10 witness: company's create fails while deal's succeeds; the
company_to_deal request is still submitted, with the raw identifier
company as fromObjectTypeId and deal resolved to its new id. -/
theorem createSchemas_failed_assoc_submitted_witness :
    (⟨"company" ++ "_to_" ++ "deal", "company",
      resolveId (metaAfter (fun _ => none)
        [(⟨"company", ["deal"]⟩, none), (⟨"deal", []⟩, some "0-9")]) "deal"⟩ :
      AssociationRequest) ∈
      createSchemas (fun _ => none)
        [(⟨"company", ["deal"]⟩, none), (⟨"deal", []⟩, some "0-9")] :=
  createSchemas_failed_assoc_submitted (fun _ => none)
    [(⟨"company", ["deal"]⟩, none), (⟨"deal", []⟩, some "0-9")]
    ⟨"company", ["deal"]⟩ none "deal" (by decide) (by decide) rfl (by decide)

end COM
